import Mathlib

/-!
Verification of the portfolio core of `Portfoy-Takip` (`src-tauri/src/calculator.rs`
and `src-tauri/src/scraper.rs`) against its specification.

Embedding conventions:
* Rust `f64` amounts (quantities, prices, monetary values) are modelled exactly
  by `ℚ`; the algorithms under study only add, subtract, multiply, divide and
  compare, so the rational model reproduces the branch structure of the code.
* SQLite tables are modelled by lists of rows in query order; `fetch_optional`
  on a unique key becomes `List.find?`.
* `HashMap<String, Vec<…>>` with `entry(..).or_insert(Vec::new())` is modelled
  by an association list keyed by the symbol, updated in place (`alSet`),
  inserting at the end on a missing key; iteration order of the map is
  modelled as first-insertion order (no claim below depends on that order).
* Rust `String::to_uppercase` is modelled character-wise by `Char.toUpper`
  (the ASCII fragment, which covers every string the claims exercise).
* Byte-wise comparison of `String` dates (Rust `&String < &String`) is
  modelled by lexicographic comparison of the character lists (`strLt`);
  for UTF-8 data byte order and code-point order agree.
-/

unseal Rat.add Rat.sub Rat.mul Rat.inv Rat.ofScientific

/-- Character-wise uppercasing, the model of Rust `to_uppercase` as used on
symbols and transaction types in `calculator.rs` (lines 63, 66, 139, 142). -/
def rustToUpper (s : String) : String := ⟨s.data.map Char.toUpper⟩

/-- Lexicographic strict order on character lists, modelling Rust's byte-wise
comparison of `String`s (dates compare this way in `get_realized_pnl_in_range`). -/
def listLt (a b : List Char) : Bool :=
  match a, b with
  | [], [] => false
  | [], _ :: _ => true
  | _ :: _, [] => false
  | x :: xs, y :: ys => if x < y then true else if y < x then false else listLt xs ys

/-- Strict order on strings via `listLt`. -/
def strLt (a b : String) : Bool := listLt a.data b.data

/-- One row of the `transactions` table, in the column order used by
`get_current_holdings` (the rows arrive ordered by `(transaction_date, created_at)`;
the list order of a ledger below is that query order). -/
structure Tx where
  transaction_date : String
  symbol : String
  transaction_type : String
  quantity : ℚ
  price : ℚ
  asset_type : String
deriving Repr, DecidableEq

/-- The buy synonyms of `calculator.rs` line 67. -/
def buyTypes : List String := ["BUY", "ALIM", "ALIŞ", "A", "PURCHASE"]

/-- Classification of `transaction_type`: the upper-cased type is compared with
the fixed synonym list; anything else is a sell (`calculator.rs` lines 66–69). -/
def isBuyType (t : String) : Bool := buyTypes.contains (rustToUpper t)

/-- One open lot of `get_current_holdings`' FIFO queues: the tuple
`(qty, price, type)` of `calculator.rs` line 53. -/
structure Lot where
  qty : ℚ
  price : ℚ
  asset_type : String
deriving Repr, DecidableEq

/-- Association-list lookup, the model of `HashMap` access by key. -/
def alGet {α : Type} (m : List (String × α)) (k : String) : Option α :=
  match m with
  | [] => none
  | (k', v) :: rest => if k' = k then some v else alGet rest k

/-- Association-list update: replace the value at `k` in place, or append a new
entry; the model of `HashMap::entry(k).or_insert(..)` followed by mutation. -/
def alSet {α : Type} (m : List (String × α)) (k : String) (v : α) : List (String × α) :=
  match m with
  | [] => [(k, v)]
  | (k', v') :: rest => if k' = k then (k, v) :: rest else (k', v') :: alSet rest k v

/-- The SELL while-loop of `get_current_holdings` (`calculator.rs` lines 70–82):
pop the head lot while quantity remains, realizing `(price − lot.price) × consumed`;
returns the realized-PnL increment and the queue after consumption. -/
def sellFromQueue (price : ℚ) (remaining : ℚ) (queue : List Lot) : ℚ × List Lot :=
  match queue with
  | [] => (0, [])
  | first :: rest =>
    if remaining ≤ 0 then (0, first :: rest)
    else if first.qty ≤ remaining then
      let r := sellFromQueue price (remaining - first.qty) rest
      ((price - first.price) * first.qty + r.1, r.2)
    else
      ((price - first.price) * remaining, { first with qty := first.qty - remaining } :: rest)

/-- Processing of one transaction row in the loop of `get_current_holdings`
(`calculator.rs` lines 56–84): state is (FIFO queues, accumulated realized PnL). -/
def processTx (st : List (String × List Lot) × ℚ) (tx : Tx) : List (String × List Lot) × ℚ :=
  let symbol := rustToUpper tx.symbol
  let queue := (alGet st.1 symbol).getD []
  if isBuyType tx.transaction_type then
    (alSet st.1 symbol (queue ++ [⟨tx.quantity, tx.price, tx.asset_type⟩]), st.2)
  else
    let r := sellFromQueue tx.price tx.quantity queue
    (alSet st.1 symbol r.2, st.2 + r.1)

/-- The whole matching pass of `get_current_holdings` over the ordered ledger. -/
def runLedger (txs : List Tx) : List (String × List Lot) × ℚ :=
  txs.foldl processTx ([], 0)

/-- Total remaining quantity of a queue (`queue.iter().map(|item| item.0).sum()`). -/
def totalQty (queue : List Lot) : ℚ := (queue.map Lot.qty).sum

/-- Total cost basis of a queue (`queue.iter().map(|item| item.0 * item.1).sum()`). -/
def totalCost (queue : List Lot) : ℚ := (queue.map (fun l => l.qty * l.price)).sum

/-- One row of the `assets` price cache (`symbol` is its primary key);
only the columns the calculator reads are modelled. -/
structure Asset where
  symbol : String
  name : String
  current_price : ℚ
deriving Repr, DecidableEq

/-- The `Holding` struct of `calculator.rs` lines 6–17. -/
structure Holding where
  symbol : String
  name : String
  asset_type : String
  quantity : ℚ
  avg_cost : ℚ
  current_price : ℚ
  value : ℚ
  pnl : ℚ
  pnl_pct : ℚ
deriving Repr, DecidableEq

/-- The holdings-building loop of `get_current_holdings` (`calculator.rs`
lines 86–115): empty queues and queues of non-positive total quantity are
skipped; a symbol missing from the `assets` cache prices at 0 and is named by
its own symbol. -/
def holdingsOf (assets : List Asset) (queues : List (String × List Lot)) : List Holding :=
  match queues with
  | [] => []
  | (symbol, queue) :: rest =>
    match queue with
    | [] => holdingsOf assets rest
    | l0 :: _ =>
      if totalQty queue ≤ 0 then holdingsOf assets rest
      else
        let total_cost := totalCost queue
        let avg_cost := total_cost / totalQty queue
        let asset_data := assets.find? (fun a => a.symbol = symbol)
        let curr_price := match asset_data with
          | some a => a.current_price
          | none => 0
        let name := match asset_data with
          | some a => a.name
          | none => symbol
        let value := totalQty queue * curr_price
        let pnl := value - total_cost
        let pnl_pct := if total_cost > 0 then pnl / total_cost * 100 else 0
        ⟨symbol, name, l0.asset_type, totalQty queue, avg_cost, curr_price, value, pnl, pnl_pct⟩
          :: holdingsOf assets rest

/-- The whole of `get_current_holdings`: the matching pass, then the Holding list
and the accumulated realized PnL. -/
def getCurrentHoldings (assets : List Asset) (txs : List Tx) : List Holding × ℚ :=
  let r := runLedger txs
  (holdingsOf assets r.1, r.2)

/-- One open lot of `get_realized_pnl_in_range`'s FIFO queues: the pair
`(qty, price)` of `calculator.rs` line 129. -/
structure Lot2 where
  qty : ℚ
  price : ℚ
deriving Repr, DecidableEq

/-- Projection of a full lot onto the pair stored by the range-filtered pass. -/
def Lot.toLot2 (l : Lot) : Lot2 := ⟨l.qty, l.price⟩

/-- The `is_in_range` check of `get_realized_pnl_in_range` (`calculator.rs`
lines 149–158): inclusive window, each bound optional. -/
def isInRange (start_date end_date : Option String) (tx_date : String) : Bool :=
  (match start_date with
   | some start => !(strLt tx_date start)
   | none => true)
  && (match end_date with
      | some e => !(strLt e tx_date)
      | none => true)

/-- The SELL while-loop of `get_realized_pnl_in_range` (`calculator.rs` lines
160–175): identical consumption mechanics, but each realized portion is added
only when `is_in_range` holds. -/
def sellFromQueue2 (is_in_range : Bool) (price : ℚ) (remaining : ℚ) (queue : List Lot2) :
    ℚ × List Lot2 :=
  match queue with
  | [] => (0, [])
  | first :: rest =>
    if remaining ≤ 0 then (0, first :: rest)
    else if first.qty ≤ remaining then
      let r := sellFromQueue2 is_in_range price (remaining - first.qty) rest
      ((if is_in_range then (price - first.price) * first.qty else 0) + r.1, r.2)
    else
      ((if is_in_range then (price - first.price) * remaining else 0),
        { first with qty := first.qty - remaining } :: rest)

/-- Processing of one transaction row in the loop of `get_realized_pnl_in_range`
(`calculator.rs` lines 132–177). -/
def processTxRange (start_date end_date : Option String)
    (st : List (String × List Lot2) × ℚ) (tx : Tx) : List (String × List Lot2) × ℚ :=
  let symbol := rustToUpper tx.symbol
  let queue := (alGet st.1 symbol).getD []
  if isBuyType tx.transaction_type then
    (alSet st.1 symbol (queue ++ [⟨tx.quantity, tx.price⟩]), st.2)
  else
    let is_in_range := isInRange start_date end_date tx.transaction_date
    let r := sellFromQueue2 is_in_range tx.price tx.quantity queue
    (alSet st.1 symbol r.2, st.2 + r.1)

/-- The whole of `get_realized_pnl_in_range` over the ordered ledger. -/
def getRealizedPnlInRange (start_date end_date : Option String) (txs : List Tx) : ℚ :=
  (txs.foldl (processTxRange start_date end_date) ([], 0)).2

/-- Specification-side FIFO consumption, written from the spec's words: a SELL
of quantity `q` consumes `q` units from the oldest open lots first; the result
is the list of consumed portions (quantity, unit cost) and the remaining queue.
`sellFromQueue` is proved to refine this description. -/
def specConsume (q : ℚ) (queue : List Lot) : List (ℚ × ℚ) × List Lot :=
  match queue with
  | [] => ([], [])
  | l :: rest =>
    if q ≤ 0 then ([], l :: rest)
    else if l.qty ≤ q then
      let r := specConsume (q - l.qty) rest
      ((l.qty, l.price) :: r.1, r.2)
    else ([(q, l.price)], { l with qty := l.qty - q } :: rest)

/-- Realized profit of a list of consumed portions at sell price `p`:
the spec's Σ over consumed portions of (sell_price − lot.cost) × consumed_qty. -/
def portionsPnl (p : ℚ) (portions : List (ℚ × ℚ)) : ℚ :=
  (portions.map (fun cu => (p - cu.2) * cu.1)).sum

/-- Per-transaction trace of the range-filtered pass: for each transaction, its
date, its sell price and the portions it consumed (a BUY consumes nothing).
The queues evolve exactly as in the matching passes; the trace only makes the
per-sell realized contributions explicit. -/
def queuesStep2 (m : List (String × List Lot2)) (tx : Tx) : List (String × List Lot2) :=
  let symbol := rustToUpper tx.symbol
  let queue := (alGet m symbol).getD []
  if isBuyType tx.transaction_type then alSet m symbol (queue ++ [⟨tx.quantity, tx.price⟩])
  else alSet m symbol (sellFromQueue2 true tx.price tx.quantity queue).2

/-- Specification-side FIFO consumption on pair lots (same as `specConsume`). -/
def specConsume2 (q : ℚ) (queue : List Lot2) : List (ℚ × ℚ) × List Lot2 :=
  match queue with
  | [] => ([], [])
  | l :: rest =>
    if q ≤ 0 then ([], l :: rest)
    else if l.qty ≤ q then
      let r := specConsume2 (q - l.qty) rest
      ((l.qty, l.price) :: r.1, r.2)
    else ([(q, l.price)], { l with qty := l.qty - q } :: rest)

/-- The trace itself: one entry per transaction. -/
def ledgerTrace (m : List (String × List Lot2)) (txs : List Tx) :
    List (String × ℚ × List (ℚ × ℚ)) :=
  match txs with
  | [] => []
  | tx :: rest =>
    let portions :=
      if isBuyType tx.transaction_type then []
      else (specConsume2 tx.quantity ((alGet m (rustToUpper tx.symbol)).getD [])).1
    (tx.transaction_date, tx.price, portions) :: ledgerTrace (queuesStep2 m tx) rest

/-- Projection of the triple-lot queues of `get_current_holdings` onto the
pair-lot queues of `get_realized_pnl_in_range` (the latter stores no
`asset_type`). -/
def projQueues (m : List (String × List Lot)) : List (String × List Lot2) :=
  m.map (fun sq => (sq.1, sq.2.map Lot.toLot2))

/-- The realized total a window recognizes out of a trace: each sell's portion
profit is counted exactly when its date lies in the window. -/
def gatedSum (start_date end_date : Option String) (trace : List (String × ℚ × List (ℚ × ℚ))) :
    ℚ :=
  (trace.map (fun ent =>
    if isInRange start_date end_date ent.1 then portionsPnl ent.2.1 ent.2.2 else 0)).sum

/-! Numeric normalization of `scraper.rs` (`parse_tr_float`, lines 285–298).
Strings are handled as character lists; Rust `str::trim`, `String::replace`
(single character to single character or to nothing), `rfind` and
`f64::from_str` are each modelled below. -/

/-- Whitespace trimming of a character list (Rust `str::trim`). -/
def trimChars (l : List Char) : List Char :=
  ((l.dropWhile Char.isWhitespace).reverse.dropWhile Char.isWhitespace).reverse

/-- Index of the last occurrence of `c` (Rust `rfind` restricted to one char). -/
def rfindChar (c : Char) (l : List Char) : Option Nat :=
  match l with
  | [] => none
  | x :: xs =>
    match rfindChar c xs with
    | some i => some (i + 1)
    | none => if x = c then some 0 else none

/-- Numeric value of a digit list (most significant first). -/
def digitsToNat (ds : List Char) : Nat := ds.foldl (fun n c => n * 10 + (c.toNat - 48)) 0

/-- Rust `f64::from_str` restricted to sign/digit/dot strings, modelled exactly
over ℚ: an optional single leading sign, then either digits, digits `.` digits
(either side possibly empty but not both), and nothing else; no exponent, and
strings of other shapes (several dots, interior signs, commas, empty) fail. -/
def parseUnsigned (cs : List Char) : Option ℚ :=
  match cs.splitOn '.' with
  | [intPart] =>
    if intPart ≠ [] ∧ intPart.all Char.isDigit then some (digitsToNat intPart) else none
  | [intPart, fracPart] =>
    if (intPart ≠ [] ∨ fracPart ≠ []) ∧ intPart.all Char.isDigit ∧ fracPart.all Char.isDigit
    then some ((digitsToNat intPart : ℚ) + (digitsToNat fracPart : ℚ) / 10 ^ fracPart.length)
    else none
  | _ => none

/-- Rust `f64::from_str` with the optional leading sign. -/
def parseFloat (cs : List Char) : Option ℚ :=
  match cs with
  | '-' :: rest => (parseUnsigned rest).map (fun q => -q)
  | '+' :: rest => parseUnsigned rest
  | rest => parseUnsigned rest

/-- The locale-aware normalization `parse_tr_float` (`scraper.rs` lines 285–298):
with both separators present the rightmost one is the decimal separator; a lone
comma is the decimal separator; otherwise plain parsing. -/
def parse_tr_float (val : List Char) : Option ℚ :=
  let clean := trimChars val
  if clean.contains ',' ∧ clean.contains '.' then
    match rfindChar ',' clean, rfindChar '.' clean with
    | some ci, some di =>
      if di < ci then
        parseFloat ((clean.filter (fun c => c ≠ '.')).map (fun c => if c = ',' then '.' else c))
      else
        parseFloat (clean.filter (fun c => c ≠ ','))
    | _, _ => none
  else if clean.contains ',' then
    parseFloat (clean.map (fun c => if c = ',' then '.' else c))
  else
    parseFloat clean

/-- The caller-side normalization of `update_general_assets` (`scraper.rs`
lines 105, 109): an unparsable value yields 0 (`unwrap_or(0.0)`). -/
def parseTrFloatOr0 (val : List Char) : ℚ := (parse_tr_float val).getD 0

/-! Fund-NAV fetcher of `scraper.rs` (`update_tefas_funds`, lines 153–283).
Calendar days are modelled as integers (`today - i` walks back `i` days);
`weekday` gives the `%u` value of a day (1 = Monday … 7 = Sunday); `fetch d t`
is the JSON `data` array for date `d` and fund type `t`, `none` when the
request or its JSON decoding fails. -/

/-- One record of the TEFAS `data` array; each field is optional as in JSON. -/
structure FundRec where
  fonkodu : Option String
  fonunvan : Option String
  fiyat : Option ℚ
  sonfiyat : Option ℚ
  borsabultenfiyat : Option ℚ
  gunlukgetiri : Option ℚ
deriving Repr, DecidableEq

/-- The date-probing loop (`scraper.rs` lines 183–204): from `i`, with `fuel`
iterations left of the original 5, skip weekend days, query the `YAT` partition
for each remaining candidate, adopt the first date with a non-empty `data`
array and stop. Returns the adopted date with its data, and the list of dates
actually queried, in probe order. -/
def probeAux (weekday : ℤ → ℕ) (fetch : ℤ → String → Option (List FundRec)) (today : ℤ)
    (i : ℕ) (fuel : ℕ) : Option (ℤ × List FundRec) × List ℤ :=
  match fuel with
  | 0 => (none, [])
  | fuel' + 1 =>
    let d := today - i
    if weekday d > 5 then probeAux weekday fetch today (i + 1) fuel'
    else
      match fetch d "YAT" with
      | some data =>
        if data ≠ [] then (some (d, data), [d])
        else
          let r := probeAux weekday fetch today (i + 1) fuel'
          (r.1, d :: r.2)
      | none =>
        let r := probeAux weekday fetch today (i + 1) fuel'
        (r.1, d :: r.2)

/-- The probe over the window `0..5` of `scraper.rs` line 183. -/
def probeTefas (weekday : ℤ → ℕ) (fetch : ℤ → String → Option (List FundRec)) (today : ℤ) :
    Option (ℤ × List FundRec) × List ℤ :=
  probeAux weekday fetch today 0 5

/-- Price selection for one fund record (`scraper.rs` lines 238–240):
`FIYAT`, then `SONFIYAT`, then `BORSABULTENFIYAT`. -/
def fundPrice (f : FundRec) : Option ℚ :=
  match f.fiyat with
  | some p => some p
  | none =>
    match f.sonfiyat with
    | some p => some p
    | none => f.borsabultenfiyat

/-- The per-record row builder (`scraper.rs` lines 236–248): records lacking a
price or with non-positive price are discarded. -/
def fundRow (f : FundRec) : Option (String × String × ℚ × ℚ) :=
  let symbol := rustToUpper (f.fonkodu.getD "")
  let name := f.fonunvan.getD ""
  let day_change := f.gunlukgetiri.getD 0
  match fundPrice f with
  | some price => if price > 0 then some (symbol, name, price, day_change) else none
  | none => none

/-- The rows `update_tefas_funds` upserts (`scraper.rs` lines 206–278): nothing
when the probe finds no valid date; otherwise the adopted date's `YAT` data
followed by the other four partitions fetched for that same date, filtered
through `fundRow` (a failed partition fetch contributes nothing). -/
def updateTefasFunds (weekday : ℤ → ℕ) (fetch : ℤ → String → Option (List FundRec))
    (today : ℤ) : List (String × String × ℚ × ℚ) :=
  match (probeTefas weekday fetch today).1 with
  | none => []
  | some (d, yatData) =>
    let others := (["EMK", "BYF", "GYF", "GSYF"].filterMap (fun t => fetch d t))
    (yatData :: others).foldl (fun acc data => acc ++ data.filterMap fundRow) []

/-! Snapshot store and range performance (`calculator.rs` lines 272–305).
A snapshot row is `(snapshot_date, total_value_tl)`; `snapshot_date` is a
unique key in the schema. -/

/-- The row `ORDER BY snapshot_date DESC LIMIT 1` selects (first on equal dates,
which the unique key rules out). -/
def bestSnap (snaps : List (String × ℚ)) : Option (String × ℚ) :=
  snaps.foldl
    (fun acc r =>
      match acc with
      | none => some r
      | some b => if strLt b.1 r.1 then some r else some b)
    none

/-- The row `WHERE snapshot_date <= bound ORDER BY snapshot_date DESC LIMIT 1`
selects. -/
def snapAtMost (snaps : List (String × ℚ)) (bound : String) : Option (String × ℚ) :=
  bestSnap (snaps.filter (fun r => !(strLt bound r.1)))

/-- The whole of `get_range_performance` (`calculator.rs` lines 272–305). -/
def getRangePerformance (snaps : List (String × ℚ)) (start_date end_date : Option String) :
    ℚ × ℚ :=
  let end_val : ℚ :=
    match end_date with
    | some e => ((snapAtMost snaps e).map Prod.snd).getD 0
    | none => ((bestSnap snaps).map Prod.snd).getD 0
  let start_val : ℚ :=
    match start_date with
    | some s => ((snapAtMost snaps s).map Prod.snd).getD 0
    | none => 0
  if start_val > 0 then (end_val - start_val, (end_val - start_val) / start_val * 100)
  else (0, 0)

/-! Portfolio-summary pieces of `get_portfolio_summary` (`calculator.rs`
lines 182–237): the USD rate with its sanity clamp, and the top/worst
performer strings. -/

/-- The USD conversion rate (`calculator.rs` lines 188–197): the cached price
of the asset with symbol `"USD"`, 1 when absent, clamped to 1 above 500. -/
def usdRateRaw (assets : List Asset) : ℚ :=
  match assets.find? (fun a => a.symbol = "USD") with
  | some a => a.current_price
  | none => 1

/-- The sanity clamp of `calculator.rs` line 197 applied to the raw rate. -/
def usdRate (assets : List Asset) : ℚ :=
  if (500 : ℚ) < usdRateRaw assets then 1 else usdRateRaw assets

/-- `total_value_usd` (`calculator.rs` line 198). -/
def totalValueUsd (assets : List Asset) (total_value : ℚ) : ℚ :=
  if usdRate assets > 0 then total_value / usdRate assets else 0

/-- Rounding to the nearest integer, ties to even, on ℚ: the model of the
rounding Rust's `{:.1}` float formatting performs (after scaling by 10). -/
def roundHalfEven (x : ℚ) : ℤ :=
  let f := x.floor
  let r := x - f
  if r < 1 / 2 then f
  else if 1 / 2 < r then f + 1
  else if f % 2 = 0 then f else f + 1

/-- The model of Rust `format!("{:.1}", v)`: sign, integer part, one rounded
fractional digit. -/
def fmtFixed1 (q : ℚ) : String :=
  let m : ℚ := if q < 0 then -q else q
  let n : ℕ := (roundHalfEven (m * 10)).toNat
  (if q < 0 then "-" else "") ++ Nat.repr (n / 10) ++ "." ++ Nat.repr (n % 10)

/-- The performer string of `calculator.rs` lines 207–208:
`format!("{} (%{:.1})", symbol, pnl_pct)` — the percent sign PRECEDES the
number (Turkish convention). -/
def fmtPerformer (symbol : String) (pnl_pct : ℚ) : String :=
  symbol ++ " (%" ++ fmtFixed1 pnl_pct ++ ")"

/-- Descending comparator of `calculator.rs` line 206:
`b.pnl_pct.partial_cmp(&a.pnl_pct)` (total on ℚ, where no NaN exists). -/
def pnlPctDesc (a b : Holding) : Bool := decide (b.pnl_pct ≤ a.pnl_pct)

/-- The top/worst performer fields of `get_portfolio_summary` (`calculator.rs`
lines 202–209): `"-"` for an empty holding list, otherwise the first and last
element of the clone sorted descending by `pnl_pct`, formatted by
`fmtPerformer`. -/
def topWorst (holdings : List Holding) : String × String :=
  if holdings.isEmpty then ("-", "-")
  else
    match holdings.mergeSort pnlPctDesc with
    | [] => ("-", "-")
    | h :: t =>
      (fmtPerformer h.symbol h.pnl_pct,
       fmtPerformer ((h :: t).getLast (List.cons_ne_nil h t)).symbol
         ((h :: t).getLast (List.cons_ne_nil h t)).pnl_pct)

/-! Helper lemmas. -/

theorem sellFromQueue_eq_specConsume (price : ℚ) (q : ℚ) (queue : List Lot) :
    sellFromQueue price q queue =
      (portionsPnl price (specConsume q queue).1, (specConsume q queue).2) := by
  induction queue generalizing q with
  | nil => simp [sellFromQueue, specConsume, portionsPnl]
  | cons l rest ih =>
    by_cases hq : q ≤ 0
    · simp [sellFromQueue, specConsume, portionsPnl, hq]
    · by_cases hl : l.qty ≤ q
      · simp [sellFromQueue, specConsume, portionsPnl, hq, hl, ih]
      · simp [sellFromQueue, specConsume, portionsPnl, hq, hl]

theorem specConsume_qty_sum (q : ℚ) (queue : List Lot) (h0 : 0 ≤ q)
    (hle : q ≤ totalQty queue) : ((specConsume q queue).1.map Prod.fst).sum = q := by
  induction queue generalizing q with
  | nil =>
    have : q = 0 := le_antisymm (by simpa [totalQty] using hle) h0
    simp [specConsume, this]
  | cons l rest ih =>
    by_cases hq : q ≤ 0
    · have : q = 0 := le_antisymm hq h0
      simp [specConsume, hq, this]
    · by_cases hl : l.qty ≤ q
      · have h0' : 0 ≤ q - l.qty := by linarith
        have hle' : q - l.qty ≤ totalQty rest := by
          simp only [totalQty, List.map_cons, List.sum_cons] at hle
          simp only [totalQty]
          linarith
        simp [specConsume, hq, hl, ih _ h0' hle']
      · simp [specConsume, hq, hl]

theorem specConsume_conservation (q : ℚ) (queue : List Lot) :
    totalQty queue = ((specConsume q queue).1.map Prod.fst).sum + totalQty (specConsume q queue).2 := by
  induction queue generalizing q with
  | nil => simp [specConsume, totalQty]
  | cons l rest ih =>
    by_cases hq : q ≤ 0
    · simp [specConsume, hq]
    · by_cases hl : l.qty ≤ q
      · simp only [specConsume, if_neg hq, if_pos hl, totalQty, List.map_cons, List.sum_cons]
        have := ih (q - l.qty)
        simp only [totalQty] at this
        linarith
      · simp only [specConsume, if_neg hq, if_neg hl, totalQty, List.map_cons, List.sum_cons,
          List.map_nil, List.sum_nil]
        ring

theorem processTx_buy (st : List (String × List Lot) × ℚ) (tx : Tx)
    (h : isBuyType tx.transaction_type = true) :
    processTx st tx =
      (alSet st.1 (rustToUpper tx.symbol)
        (((alGet st.1 (rustToUpper tx.symbol)).getD [])
          ++ [⟨tx.quantity, tx.price, tx.asset_type⟩]),
       st.2) := by
  simp [processTx, h]

theorem processTx_sell (st : List (String × List Lot) × ℚ) (tx : Tx)
    (h : isBuyType tx.transaction_type = false) :
    processTx st tx =
      (alSet st.1 (rustToUpper tx.symbol)
        (sellFromQueue tx.price tx.quantity ((alGet st.1 (rustToUpper tx.symbol)).getD [])).2,
       st.2 + (sellFromQueue tx.price tx.quantity ((alGet st.1 (rustToUpper tx.symbol)).getD [])).1) := by
  simp [processTx, h]

/-! Claim C1. -/

/-- C1: a SELL of quantity `q` at most the total held is processed by consuming
exactly `q` units from the oldest open lots first (`specConsume`, the spec-side
description of FIFO consumption), the realized-PnL increment is the sum over
the consumed portions of (sell_price − unit_cost) × consumed_qty, and the total
remaining quantity drops by exactly `q`; in particular the history
[BUY 10@100, BUY 5@120, SELL 12@150] leaves one lot of 3 units at cost 120 with
realized PnL 560. -/
theorem C1_fifo_sell (price q : ℚ) (queue : List Lot) (h0 : 0 ≤ q)
    (hle : q ≤ totalQty queue) :
    sellFromQueue price q queue
        = (portionsPnl price (specConsume q queue).1, (specConsume q queue).2)
      ∧ ((specConsume q queue).1.map Prod.fst).sum = q
      ∧ totalQty (specConsume q queue).2 = totalQty queue - q
      ∧ runLedger
          [⟨"2024-01-01", "X", "BUY", 10, 100, "hisse"⟩,
           ⟨"2024-01-02", "X", "BUY", 5, 120, "hisse"⟩,
           ⟨"2024-01-03", "X", "SELL", 12, 150, "hisse"⟩]
          = ([("X", [⟨3, 120, "hisse"⟩])], 560) := by
  refine ⟨sellFromQueue_eq_specConsume price q queue, specConsume_qty_sum q queue h0 hle, ?_,
    by decide⟩
  have h1 := specConsume_conservation q queue
  have h2 := specConsume_qty_sum q queue h0 hle
  linarith

/-- Witness for C1 at the concrete sale 12@150 against lots [10@100, 5@120]. -/
theorem C1_fifo_sell_witness :
    ((specConsume 12 [⟨10, 100, "hisse"⟩, ⟨5, 120, "hisse"⟩]).1.map Prod.fst).sum = 12 :=
  (C1_fifo_sell 150 12 [⟨10, 100, "hisse"⟩, ⟨5, 120, "hisse"⟩] (by decide) (by decide)).2.1

/-! Claim C2. -/

theorem mem_alSet {α : Type} (m : List (String × α)) (k : String) (v : α)
    (x : String × α) (hx : x ∈ alSet m k v) : x = (k, v) ∨ x ∈ m := by
  induction m with
  | nil => simpa [alSet] using hx
  | cons p rest ih =>
    by_cases hk : p.1 = k
    · rcases p with ⟨k', v'⟩
      simp only [alSet, if_pos hk, List.mem_cons] at hx
      rcases hx with h | h
      · exact Or.inl h
      · exact Or.inr (List.mem_cons_of_mem _ h)
    · rcases p with ⟨k', v'⟩
      simp only [alSet, if_neg hk, List.mem_cons] at hx
      rcases hx with h | h
      · exact Or.inr (by simp [h])
      · rcases ih h with h' | h'
        · exact Or.inl h'
        · exact Or.inr (List.mem_cons_of_mem _ h')

theorem alGet_mem {α : Type} (m : List (String × α)) (k : String) (v : α)
    (h : alGet m k = some v) : (k, v) ∈ m := by
  induction m with
  | nil => simp [alGet] at h
  | cons p rest ih =>
    rcases p with ⟨k', v'⟩
    by_cases hk : k' = k
    · simp only [alGet, if_pos hk] at h
      injection h with h'
      subst hk
      subst h'
      exact List.mem_cons_self _ _
    · simp only [alGet, if_neg hk] at h
      exact List.mem_cons_of_mem _ (ih h)

theorem sellFromQueue_pos (p q : ℚ) (queue : List Lot) (hpos : ∀ l ∈ queue, 0 < l.qty) :
    ∀ l ∈ (sellFromQueue p q queue).2, 0 < l.qty := by
  induction queue generalizing q with
  | nil => simp [sellFromQueue]
  | cons first rest ih =>
    by_cases hq : q ≤ 0
    · simpa [sellFromQueue, hq] using hpos
    · by_cases hl : first.qty ≤ q
      · simp only [sellFromQueue, if_neg hq, if_pos hl]
        exact ih (q - first.qty) (fun l hl' => hpos l (List.mem_cons_of_mem _ hl'))
      · simp only [sellFromQueue, if_neg hq, if_neg hl]
        intro l hl'
        rcases List.mem_cons.mp hl' with h | h
        · subst h
          simp only [not_le] at hl
          simpa using sub_pos.mpr hl
        · exact hpos l (List.mem_cons_of_mem _ h)

theorem processTx_pos (st : List (String × List Lot) × ℚ) (tx : Tx)
    (hm : ∀ sq ∈ st.1, ∀ l ∈ sq.2, 0 < l.qty)
    (hq : isBuyType tx.transaction_type = true → 0 < tx.quantity) :
    ∀ sq ∈ (processTx st tx).1, ∀ l ∈ sq.2, 0 < l.qty := by
  have hqueue : ∀ l ∈ (alGet st.1 (rustToUpper tx.symbol)).getD [], 0 < l.qty := by
    cases hg : alGet st.1 (rustToUpper tx.symbol) with
    | none => simp
    | some qq => simpa using hm _ (alGet_mem st.1 (rustToUpper tx.symbol) qq hg)
  intro sq hsq l hl
  cases hbuy : isBuyType tx.transaction_type with
  | true =>
    rw [processTx_buy st tx hbuy] at hsq
    rcases mem_alSet _ _ _ _ hsq with h | h
    · subst h
      simp only at hl
      rcases List.mem_append.mp hl with h' | h'
      · exact hqueue l h'
      · have := hq hbuy
        simp only [List.mem_singleton] at h'
        subst h'
        simpa using this
    · exact hm _ h l hl
  | false =>
    rw [processTx_sell st tx hbuy] at hsq
    rcases mem_alSet _ _ _ _ hsq with h | h
    · subst h
      exact sellFromQueue_pos _ _ _ hqueue l hl
    · exact hm _ h l hl

theorem foldl_processTx_pos (txs : List Tx) (m : List (String × List Lot)) (acc : ℚ)
    (hm : ∀ sq ∈ m, ∀ l ∈ sq.2, 0 < l.qty)
    (hb : ∀ tx ∈ txs, isBuyType tx.transaction_type = true → 0 < tx.quantity) :
    ∀ sq ∈ (txs.foldl processTx (m, acc)).1, ∀ l ∈ sq.2, 0 < l.qty := by
  induction txs generalizing m acc with
  | nil => simpa using hm
  | cons tx rest ih =>
    simp only [List.foldl_cons]
    have step := processTx_pos (m, acc) tx hm (hb tx (List.mem_cons_self _ _))
    have hrec := ih (processTx (m, acc) tx).1 (processTx (m, acc) tx).2 step
      (fun t ht => hb t (List.mem_cons_of_mem _ ht))
    simpa using hrec

theorem totalQty_nonneg (queue : List Lot) (h : ∀ l ∈ queue, 0 < l.qty) : 0 ≤ totalQty queue := by
  refine List.sum_nonneg ?_
  intro x hx
  rcases List.mem_map.mp hx with ⟨l, hl, rfl⟩
  exact le_of_lt (h l hl)

theorem sellFromQueue_oversell (p q : ℚ) (queue : List Lot)
    (hpos : ∀ l ∈ queue, 0 < l.qty) (hover : totalQty queue < q) :
    sellFromQueue p q queue = ((queue.map (fun l => (p - l.price) * l.qty)).sum, []) := by
  induction queue generalizing q with
  | nil => simp [sellFromQueue]
  | cons first rest ih =>
    have hfq : 0 < first.qty := hpos first (List.mem_cons_self _ _)
    have hrest : 0 ≤ totalQty rest :=
      totalQty_nonneg rest (fun l hl => hpos l (List.mem_cons_of_mem _ hl))
    have htq : totalQty (first :: rest) = first.qty + totalQty rest := by
      simp [totalQty]
    have hq : ¬ q ≤ 0 := by
      rw [htq] at hover
      linarith
    have hl : first.qty ≤ q := by
      rw [htq] at hover
      linarith
    have hover' : totalQty rest < q - first.qty := by
      rw [htq] at hover
      linarith
    simp [sellFromQueue, hq, hl,
      ih (q - first.qty) (fun l hl' => hpos l (List.mem_cons_of_mem _ hl')) hover']

/-! Claim C3: helper lemmas relating the range-filtered pass to the
unrestricted pass. -/

theorem sellFromQueue2_gate (g : Bool) (p q : ℚ) (queue : List Lot2) :
    sellFromQueue2 g p q queue =
      ((if g then (sellFromQueue2 true p q queue).1 else 0),
       (sellFromQueue2 true p q queue).2) := by
  induction queue generalizing q with
  | nil => cases g <;> simp [sellFromQueue2]
  | cons first rest ih =>
    by_cases hq : q ≤ 0
    · cases g <;> simp [sellFromQueue2, hq]
    · by_cases hl : first.qty ≤ q
      · simp only [sellFromQueue2, if_neg hq, if_pos hl, ih]
        cases g <;> simp
      · simp only [sellFromQueue2, if_neg hq, if_neg hl]
        cases g <;> simp

theorem sellFromQueue2_eq_specConsume2 (p q : ℚ) (queue : List Lot2) :
    sellFromQueue2 true p q queue =
      (portionsPnl p (specConsume2 q queue).1, (specConsume2 q queue).2) := by
  induction queue generalizing q with
  | nil => simp [sellFromQueue2, specConsume2, portionsPnl]
  | cons l rest ih =>
    by_cases hq : q ≤ 0
    · simp [sellFromQueue2, specConsume2, portionsPnl, hq]
    · by_cases hl : l.qty ≤ q
      · simp [sellFromQueue2, specConsume2, portionsPnl, hq, hl, ih]
      · simp [sellFromQueue2, specConsume2, portionsPnl, hq, hl]

theorem processTxRange_buy (s e : Option String) (st : List (String × List Lot2) × ℚ) (tx : Tx)
    (h : isBuyType tx.transaction_type = true) :
    processTxRange s e st tx =
      (alSet st.1 (rustToUpper tx.symbol)
        (((alGet st.1 (rustToUpper tx.symbol)).getD []) ++ [⟨tx.quantity, tx.price⟩]),
       st.2) := by
  simp [processTxRange, h]

theorem processTxRange_sell (s e : Option String) (st : List (String × List Lot2) × ℚ) (tx : Tx)
    (h : isBuyType tx.transaction_type = false) :
    processTxRange s e st tx =
      (alSet st.1 (rustToUpper tx.symbol)
        (sellFromQueue2 (isInRange s e tx.transaction_date) tx.price tx.quantity
          ((alGet st.1 (rustToUpper tx.symbol)).getD [])).2,
       st.2 + (sellFromQueue2 (isInRange s e tx.transaction_date) tx.price tx.quantity
          ((alGet st.1 (rustToUpper tx.symbol)).getD [])).1) := by
  simp [processTxRange, h]

theorem queuesStep2_buy (m : List (String × List Lot2)) (tx : Tx)
    (h : isBuyType tx.transaction_type = true) :
    queuesStep2 m tx =
      alSet m (rustToUpper tx.symbol)
        (((alGet m (rustToUpper tx.symbol)).getD []) ++ [⟨tx.quantity, tx.price⟩]) := by
  simp [queuesStep2, h]

theorem queuesStep2_sell (m : List (String × List Lot2)) (tx : Tx)
    (h : isBuyType tx.transaction_type = false) :
    queuesStep2 m tx =
      alSet m (rustToUpper tx.symbol)
        (sellFromQueue2 true tx.price tx.quantity
          ((alGet m (rustToUpper tx.symbol)).getD [])).2 := by
  simp [queuesStep2, h]

theorem processTxRange_fst (s e : Option String) (st : List (String × List Lot2) × ℚ) (tx : Tx) :
    (processTxRange s e st tx).1 = queuesStep2 st.1 tx := by
  cases hbuy : isBuyType tx.transaction_type with
  | true => rw [processTxRange_buy s e st tx hbuy, queuesStep2_buy st.1 tx hbuy]
  | false =>
    rw [processTxRange_sell s e st tx hbuy, queuesStep2_sell st.1 tx hbuy]
    exact congrArg _ (congrArg Prod.snd (sellFromQueue2_gate _ _ _ _))

theorem processTxRange_snd (s e : Option String) (st : List (String × List Lot2) × ℚ) (tx : Tx) :
    (processTxRange s e st tx).2 =
      st.2 + (if isBuyType tx.transaction_type then 0
        else if isInRange s e tx.transaction_date then
          portionsPnl tx.price
            (specConsume2 tx.quantity ((alGet st.1 (rustToUpper tx.symbol)).getD [])).1
        else 0) := by
  cases hbuy : isBuyType tx.transaction_type with
  | true =>
    rw [processTxRange_buy s e st tx hbuy]
    simp [hbuy]
  | false =>
    rw [processTxRange_sell s e st tx hbuy]
    simp only [hbuy, Bool.false_eq_true, if_false]
    rw [sellFromQueue2_gate, sellFromQueue2_eq_specConsume2]

theorem range_fold_queues (s e : Option String) (txs : List Tx)
    (m : List (String × List Lot2)) (acc : ℚ) :
    (txs.foldl (processTxRange s e) (m, acc)).1 = txs.foldl queuesStep2 m := by
  induction txs generalizing m acc with
  | nil => rfl
  | cons tx rest ih =>
    simp only [List.foldl_cons]
    have h1 : processTxRange s e (m, acc) tx
        = ((processTxRange s e (m, acc) tx).1, (processTxRange s e (m, acc) tx).2) := rfl
    rw [h1, processTxRange_fst]
    exact ih _ _

theorem range_fold_pnl (s e : Option String) (txs : List Tx)
    (m : List (String × List Lot2)) (acc : ℚ) :
    (txs.foldl (processTxRange s e) (m, acc)).2 = acc + gatedSum s e (ledgerTrace m txs) := by
  induction txs generalizing m acc with
  | nil => simp [ledgerTrace, gatedSum]
  | cons tx rest ih =>
    simp only [List.foldl_cons]
    have h1 : processTxRange s e (m, acc) tx
        = ((processTxRange s e (m, acc) tx).1, (processTxRange s e (m, acc) tx).2) := rfl
    rw [h1, processTxRange_fst, processTxRange_snd, ih]
    cases hbuy : isBuyType tx.transaction_type with
    | true =>
      simp [ledgerTrace, gatedSum, hbuy, portionsPnl]
    | false =>
      simp [ledgerTrace, gatedSum, hbuy]
      ring

theorem getD_map_nil {A B : Type} (o : Option (List A)) (f : A -> B) :
    (o.map (List.map f)).getD [] = (o.getD []).map f := by
  cases o <;> simp

theorem alGet_proj (m : List (String × List Lot)) (k : String) :
    alGet (projQueues m) k = (alGet m k).map (List.map Lot.toLot2) := by
  induction m with
  | nil => simp [projQueues, alGet]
  | cons p rest ih =>
    rcases p with ⟨k', q⟩
    by_cases hk : k' = k
    · simp [projQueues, alGet, hk]
    · simpa [projQueues, alGet, hk] using ih

theorem alSet_proj (m : List (String × List Lot)) (k : String) (queue : List Lot) :
    alSet (projQueues m) k (queue.map Lot.toLot2) = projQueues (alSet m k queue) := by
  induction m with
  | nil => simp [projQueues, alSet]
  | cons p rest ih =>
    rcases p with ⟨k', q⟩
    by_cases hk : k' = k
    · simp [projQueues, alSet, hk]
    · simpa [projQueues, alSet, hk] using ih

theorem sell2_proj (p q : ℚ) (queue : List Lot) :
    sellFromQueue2 true p q (queue.map Lot.toLot2) =
      ((sellFromQueue p q queue).1, (sellFromQueue p q queue).2.map Lot.toLot2) := by
  induction queue generalizing q with
  | nil => simp [sellFromQueue2, sellFromQueue]
  | cons first rest ih =>
    by_cases hq : q ≤ 0
    · simp [sellFromQueue2, sellFromQueue, Lot.toLot2, hq]
    · by_cases hl : first.qty ≤ q
      · simp [sellFromQueue2, sellFromQueue, Lot.toLot2, hq, hl, ih]
      · simp [sellFromQueue2, sellFromQueue, Lot.toLot2, hq, hl]

theorem processTx_proj (st : List (String × List Lot) × ℚ) (tx : Tx) :
    projQueues (processTx st tx).1 = queuesStep2 (projQueues st.1) tx
      ∧ (processTx st tx).2 = st.2 +
          (if isBuyType tx.transaction_type then 0
           else portionsPnl tx.price
            (specConsume2 tx.quantity
              ((alGet (projQueues st.1) (rustToUpper tx.symbol)).getD [])).1) := by
  have hget : (alGet (projQueues st.1) (rustToUpper tx.symbol)).getD []
      = ((alGet st.1 (rustToUpper tx.symbol)).getD []).map Lot.toLot2 := by
    rw [alGet_proj, getD_map_nil]
  cases hbuy : isBuyType tx.transaction_type with
  | true =>
    rw [processTx_buy st tx hbuy, queuesStep2_buy (projQueues st.1) tx hbuy]
    constructor
    · rw [hget]
      have : ((alGet st.1 (rustToUpper tx.symbol)).getD []).map Lot.toLot2
            ++ [(⟨tx.quantity, tx.price⟩ : Lot2)]
          = (((alGet st.1 (rustToUpper tx.symbol)).getD [])
            ++ [(⟨tx.quantity, tx.price, tx.asset_type⟩ : Lot)]).map Lot.toLot2 := by
        simp [Lot.toLot2]
      rw [this, alSet_proj]
    · simp [hbuy]
  | false =>
    rw [processTx_sell st tx hbuy, queuesStep2_sell (projQueues st.1) tx hbuy]
    constructor
    · rw [hget, sell2_proj, alSet_proj]
    · rw [hget]
      have := sell2_proj tx.price tx.quantity ((alGet st.1 (rustToUpper tx.symbol)).getD [])
      rw [sellFromQueue2_eq_specConsume2] at this
      have h1 : (sellFromQueue tx.price tx.quantity
            ((alGet st.1 (rustToUpper tx.symbol)).getD [])).1
          = portionsPnl tx.price
              (specConsume2 tx.quantity
                (((alGet st.1 (rustToUpper tx.symbol)).getD []).map Lot.toLot2)).1 := by
        rw [← congrArg Prod.fst this]
      simp [h1]

theorem plain_fold_spec (txs : List Tx) (m : List (String × List Lot)) (acc : ℚ) :
    projQueues ((txs.foldl processTx (m, acc)).1) = txs.foldl queuesStep2 (projQueues m)
      ∧ (txs.foldl processTx (m, acc)).2
          = acc + gatedSum none none (ledgerTrace (projQueues m) txs) := by
  induction txs generalizing m acc with
  | nil => exact ⟨rfl, by simp [ledgerTrace, gatedSum]⟩
  | cons tx rest ih =>
    simp only [List.foldl_cons]
    have hstep := processTx_proj (m, acc) tx
    have h1 : processTx (m, acc) tx
        = ((processTx (m, acc) tx).1, (processTx (m, acc) tx).2) := rfl
    rw [h1]
    have hrec := ih (processTx (m, acc) tx).1 (processTx (m, acc) tx).2
    refine ⟨?_, ?_⟩
    · rw [hrec.1, hstep.1]
    · rw [hrec.2, hstep.2, hstep.1]
      simp only [ledgerTrace, gatedSum, List.map_cons, List.sum_cons]
      cases hbuy : isBuyType tx.transaction_type with
      | true => simp [hbuy, portionsPnl, gatedSum]
      | false =>
        simp only [hbuy, Bool.false_eq_true, if_false, isInRange]
        simp [gatedSum]
        ring

theorem gatedSum_none_eq (trace : List (String × ℚ × List (ℚ × ℚ))) :
    gatedSum none none trace = (trace.map (fun ent => portionsPnl ent.2.1 ent.2.2)).sum := by
  simp [gatedSum, isInRange]

theorem gatedSum_le (s e : Option String) (trace : List (String × ℚ × List (ℚ × ℚ)))
    (h : ∀ ent ∈ trace, 0 ≤ portionsPnl ent.2.1 ent.2.2) :
    gatedSum s e trace ≤ gatedSum none none trace := by
  rw [gatedSum_none_eq]
  refine List.sum_le_sum ?_
  intro ent hent
  by_cases hr : isInRange s e ent.1 = true
  · simp [hr]
  · simp only [hr, if_false]
    exact h ent hent

/-- C3: the range-filtered pass consumes lots and mutates queues exactly as
the unrestricted pass does (its queues are the `Lot2` projection of the
unrestricted queues, whatever the window); a matched portion's profit enters
the returned total exactly when the triggering SELL's date lies in the
inclusive window (`gatedSum` over the trace, a missing bound being unbounded);
with both bounds missing the result is exactly the unrestricted realized PnL;
and when every matched portion's profit is positive the windowed total is at
most the unrestricted total. -/
theorem C3_window_gates_recognition (txs : List Tx) (s e : Option String) :
    (txs.foldl (processTxRange s e) ([], 0)).1 = projQueues (runLedger txs).1
      ∧ getRealizedPnlInRange s e txs = gatedSum s e (ledgerTrace [] txs)
      ∧ getRealizedPnlInRange none none txs = (runLedger txs).2
      ∧ ((∀ ent ∈ ledgerTrace [] txs, ∀ cu ∈ ent.2.2, 0 < (ent.2.1 - cu.2) * cu.1) →
          getRealizedPnlInRange s e txs ≤ getRealizedPnlInRange none none txs) := by
  have hq : (txs.foldl (processTxRange s e) ([], 0)).1 = projQueues (runLedger txs).1 := by
    rw [range_fold_queues]
    exact ((plain_fold_spec txs [] 0).1).symm
  have hw : ∀ s' e' : Option String,
      getRealizedPnlInRange s' e' txs = gatedSum s' e' (ledgerTrace [] txs) := by
    intro s' e'
    unfold getRealizedPnlInRange
    rw [range_fold_pnl]
    simp
  have hnone : getRealizedPnlInRange none none txs = (runLedger txs).2 := by
    rw [hw none none]
    have := (plain_fold_spec txs [] 0).2
    unfold runLedger
    rw [this]
    simp [projQueues]
  refine ⟨hq, hw s e, hnone, ?_⟩
  intro hpos
  rw [hw s e, hw none none]
  refine gatedSum_le s e _ ?_
  intro ent hent
  refine List.sum_nonneg ?_
  intro x hx
  rcases List.mem_map.mp hx with ⟨cu, hcu, rfl⟩
  exact le_of_lt (hpos ent hent cu hcu)

/-! Claim C4. -/

theorem alpha_not_ws (c : Char)
    (h : c.isDigit = true ∨ c = ',' ∨ c = '.' ∨ c = '+' ∨ c = '-') :
    c.isWhitespace = false := by
  rcases h with h | h | h | h | h
  · cases hws : c.isWhitespace with
    | false => rfl
    | true =>
      have hws' : ((c = ' ' ∨ c = '\t') ∨ c = '\r') ∨ c = '\n' := by
        simpa [Char.isWhitespace] using hws
      rcases hws' with ((rfl | rfl) | rfl) | rfl <;> exact absurd h (by decide)
  · subst h; decide
  · subst h; decide
  · subst h; decide
  · subst h; decide

theorem trimChars_eq_self (l : List Char) (h : ∀ c ∈ l, c.isWhitespace = false) :
    trimChars l = l := by
  have drop : ∀ (xs : List Char), (∀ c ∈ xs, c.isWhitespace = false) →
      xs.dropWhile Char.isWhitespace = xs := by
    intro xs hxs
    cases xs with
    | nil => rfl
    | cons c rest =>
      rw [List.dropWhile_cons]
      simp [hxs c (List.mem_cons_self _ _)]
  unfold trimChars
  rw [drop l h, drop l.reverse (fun c hc => h c (List.mem_reverse.mp hc)), List.reverse_reverse]

theorem rfindChar_contains (c : Char) (l : List Char) (i : Nat)
    (h : rfindChar c l = some i) : l.contains c = true := by
  induction l generalizing i with
  | nil => simp [rfindChar] at h
  | cons x xs ih =>
    rw [rfindChar] at h
    cases hr : rfindChar c xs with
    | some j =>
      have hmem : c ∈ xs := by simpa using ih j hr
      simp only [List.contains_cons]
      simp [hmem]
    | none =>
      rw [hr] at h
      by_cases hx : x = c
      · simp only [List.contains_cons]
        simp [hx]
      · simp [hx] at h

/-- C4: the numeric normalization of `parse_tr_float` as consumed by
`update_general_assets` (unparsable → 0). Over sign/digit/separator strings:
when both separators occur and the rightmost comma sits right of the rightmost
dot, dots are removed and the comma becomes the decimal point; when the
rightmost dot sits right of the rightmost comma, commas are removed; a lone
comma becomes the decimal point; otherwise the string parses as is; and the
four examples of the spec evaluate as stated ("1,2,3" is unparsable and
yields 0). -/
theorem C4_numeric_normalization (l : List Char)
    (halpha : ∀ c ∈ l, c.isDigit = true ∨ c = ',' ∨ c = '.' ∨ c = '+' ∨ c = '-') :
    (∀ ci di, rfindChar ',' l = some ci → rfindChar '.' l = some di →
      (di < ci → parseTrFloatOr0 l
          = (parseFloat ((l.filter (fun c => c ≠ '.')).map
              (fun c => if c = ',' then '.' else c))).getD 0)
      ∧ (¬ di < ci → parseTrFloatOr0 l = (parseFloat (l.filter (fun c => c ≠ ','))).getD 0))
    ∧ (l.contains ',' = true → l.contains '.' = false →
        parseTrFloatOr0 l = (parseFloat (l.map (fun c => if c = ',' then '.' else c))).getD 0)
    ∧ (l.contains ',' = false → parseTrFloatOr0 l = (parseFloat l).getD 0)
    ∧ parseTrFloatOr0 "1.234,56".data = 1234.56
    ∧ parseTrFloatOr0 "1,234.56".data = 1234.56
    ∧ parseTrFloatOr0 "12,5".data = 12.5
    ∧ parseTrFloatOr0 "12.5".data = 12.5
    ∧ parseTrFloatOr0 "1,2,3".data = 0 := by
  have htrim : trimChars l = l :=
    trimChars_eq_self l (fun c hc => alpha_not_ws c (halpha c hc))
  refine ⟨?_, ?_, ?_, by decide, by decide, by decide, by decide, by decide⟩
  · intro ci di hci hdi
    have hc : ',' ∈ l := by simpa using rfindChar_contains ',' l ci hci
    have hd : '.' ∈ l := by simpa using rfindChar_contains '.' l di hdi
    constructor
    · intro hlt
      simp [parseTrFloatOr0, parse_tr_float, htrim, hc, hd, hci, hdi, hlt]
    · intro hlt
      simp [parseTrFloatOr0, parse_tr_float, htrim, hc, hd, hci, hdi, hlt]
  · intro hc hd
    have hc' : ',' ∈ l := by simpa using hc
    have hd' : ¬ ('.' ∈ l) := by simpa using hd
    simp [parseTrFloatOr0, parse_tr_float, htrim, hc', hd']
  · intro hc
    have hc' : ¬ (',' ∈ l) := by simpa using hc
    simp [parseTrFloatOr0, parse_tr_float, htrim, hc']

/-- Witness for C4 at "1.234,56" (rightmost comma right of rightmost dot). -/
theorem C4_numeric_normalization_witness :
    parseTrFloatOr0 "1.234,56".data
      = (parseFloat (("1.234,56".data.filter (fun c => c ≠ '.')).map
          (fun c => if c = ',' then '.' else c))).getD 0 :=
  ((C4_numeric_normalization "1.234,56".data (by decide)).1 5 1 (by decide) (by decide)).1
    (by decide)

/-! Claim C5. -/

/-- C5: the USD conversion rate of the portfolio summary is the cached price of
the asset with symbol "USD", 1 when that asset is absent; a looked-up rate
above 500 is clamped to 1, so a cached rate of 1000 makes `total_value_usd`
divide by 1. -/
theorem C5_usd_rate_clamp (assets : List Asset) (a : Asset) (total_value : ℚ) :
    (assets.find? (fun x => x.symbol = "USD") = none → usdRate assets = 1)
      ∧ (assets.find? (fun x => x.symbol = "USD") = some a → a.current_price ≤ 500 →
          usdRate assets = a.current_price)
      ∧ (assets.find? (fun x => x.symbol = "USD") = some a → (500 : ℚ) < a.current_price →
          usdRate assets = 1 ∧ totalValueUsd assets total_value = total_value)
      ∧ usdRate [⟨"USD", "Dolar", 1000⟩] = 1
      ∧ totalValueUsd [⟨"USD", "Dolar", 1000⟩] total_value = total_value := by
  have husd : usdRate [⟨"USD", "Dolar", 1000⟩] = 1 := by decide
  refine ⟨?_, ?_, ?_, husd, ?_⟩
  · intro h
    have hraw : usdRateRaw assets = 1 := by simp [usdRateRaw, h]
    rw [usdRate, hraw]
    norm_num
  · intro h hle
    have hraw : usdRateRaw assets = a.current_price := by simp [usdRateRaw, h]
    rw [usdRate, hraw, if_neg (not_lt.mpr hle)]
  · intro h hlt
    have hraw : usdRateRaw assets = a.current_price := by simp [usdRateRaw, h]
    have h1 : usdRate assets = 1 := by rw [usdRate, hraw, if_pos hlt]
    refine ⟨h1, ?_⟩
    rw [totalValueUsd, h1]
    norm_num
  · rw [totalValueUsd, husd]
    norm_num

/-- Witness for C5: the empty cache defaults the rate to 1. -/
theorem C5_usd_rate_clamp_witness : usdRate [] = 1 :=
  (C5_usd_rate_clamp [] ⟨"USD", "Dolar", 1000⟩ 0).1 (by decide)

/-! Claim C9. -/

theorem holdingsOf_missing_asset (assets : List Asset) (qs : List (String × List Lot)) :
    ∀ h ∈ holdingsOf assets qs, assets.find? (fun a => a.symbol = h.symbol) = none →
      h.current_price = 0 ∧ h.name = h.symbol ∧ h.value = 0
        ∧ h.pnl = -(h.quantity * h.avg_cost) := by
  induction qs with
  | nil => simp [holdingsOf]
  | cons p rest ih =>
    rcases p with ⟨symbol, queue⟩
    cases queue with
    | nil => simpa [holdingsOf] using ih
    | cons l0 tl =>
      by_cases htq : totalQty (l0 :: tl) ≤ 0
      · simpa [holdingsOf, htq] using ih
      · intro h hmem hfind
        rw [holdingsOf] at hmem
        simp only [htq, if_false, List.mem_cons] at hmem
        rcases hmem with rfl | hmem
        · simp only at hfind
          have htq' : totalQty (l0 :: tl) ≠ 0 := by
            intro h0
            exact htq (le_of_eq h0)
          have hqavg : totalCost (l0 :: tl) / totalQty (l0 :: tl) * totalQty (l0 :: tl)
              = totalCost (l0 :: tl) := div_mul_cancel₀ _ htq'
          refine ⟨by simp [hfind], by simp [hfind], by simp [hfind], ?_⟩
          simp only [hfind]
          have hmul : totalQty (l0 :: tl) * (totalCost (l0 :: tl) / totalQty (l0 :: tl))
              = totalCost (l0 :: tl) := by
            rw [mul_comm]
            exact hqavg
          rw [hmul]
          ring
        · exact ih h hmem hfind

/-- C9: a symbol with open lots but no row in the Asset cache produces a
Holding with current_price 0, name equal to the symbol itself, value 0 and
pnl equal to minus its total cost (quantity × avg_cost reproduces the total
cost); the computation is total, so no error is raised. -/
theorem C9_missing_price_defaults (assets : List Asset) (txs : List Tx)
    (h : Holding) (hmem : h ∈ (getCurrentHoldings assets txs).1)
    (hfind : assets.find? (fun a => a.symbol = h.symbol) = none) :
    h.current_price = 0 ∧ h.name = h.symbol ∧ h.value = 0
      ∧ h.pnl = -(h.quantity * h.avg_cost) :=
  holdingsOf_missing_asset assets (runLedger txs).1 h hmem hfind

/-- Witness for C9: one BUY of a symbol absent from an empty Asset cache. -/
theorem C9_missing_price_defaults_witness :
    (⟨"X", "X", "t", 2, 10, 0, 0, -20, -100⟩ : Holding).current_price = 0
      ∧ (⟨"X", "X", "t", 2, 10, 0, 0, -20, -100⟩ : Holding).name
          = (⟨"X", "X", "t", 2, 10, 0, 0, -20, -100⟩ : Holding).symbol
      ∧ (⟨"X", "X", "t", 2, 10, 0, 0, -20, -100⟩ : Holding).value = 0
      ∧ (⟨"X", "X", "t", 2, 10, 0, 0, -20, -100⟩ : Holding).pnl
          = -((⟨"X", "X", "t", 2, 10, 0, 0, -20, -100⟩ : Holding).quantity
              * (⟨"X", "X", "t", 2, 10, 0, 0, -20, -100⟩ : Holding).avg_cost) :=
  C9_missing_price_defaults [] [⟨"d1", "X", "BUY", 2, 10, "t"⟩]
    ⟨"X", "X", "t", 2, 10, 0, 0, -20, -100⟩ (by decide) (by decide)

/-! Claim C10. -/

theorem processTx_keys (st : List (String × List Lot) × ℚ) (tx : Tx) (sq : String × List Lot)
    (hsq : sq ∈ (processTx st tx).1) :
    sq.1 = rustToUpper tx.symbol ∨ sq.1 ∈ st.1.map Prod.fst := by
  cases hbuy : isBuyType tx.transaction_type with
  | true =>
    rw [processTx_buy st tx hbuy] at hsq
    rcases mem_alSet _ _ _ _ hsq with h | h
    · exact Or.inl (by rw [h])
    · exact Or.inr (List.mem_map_of_mem Prod.fst h)
  | false =>
    rw [processTx_sell st tx hbuy] at hsq
    rcases mem_alSet _ _ _ _ hsq with h | h
    · exact Or.inl (by rw [h])
    · exact Or.inr (List.mem_map_of_mem Prod.fst h)

theorem foldl_processTx_keys (txs : List Tx) (m : List (String × List Lot)) (acc : ℚ)
    (sq : String × List Lot) (hsq : sq ∈ (txs.foldl processTx (m, acc)).1) :
    sq.1 ∈ m.map Prod.fst ∨ ∃ tx ∈ txs, sq.1 = rustToUpper tx.symbol := by
  induction txs generalizing m acc with
  | nil => exact Or.inl (List.mem_map_of_mem Prod.fst (by simpa using hsq))
  | cons tx rest ih =>
    simp only [List.foldl_cons] at hsq
    have h1 : processTx (m, acc) tx
        = ((processTx (m, acc) tx).1, (processTx (m, acc) tx).2) := rfl
    rw [h1] at hsq
    rcases ih _ _ hsq with h | h
    · rcases List.mem_map.mp h with ⟨sq', hsq', hfst⟩
      rcases processTx_keys (m, acc) tx sq' hsq' with h' | h'
      · exact Or.inr ⟨tx, List.mem_cons_self _ _, by rw [← hfst, h']⟩
      · exact Or.inl (by rw [← hfst]; exact h')
    · rcases h with ⟨tx', htx', heq⟩
      exact Or.inr ⟨tx', List.mem_cons_of_mem _ htx', heq⟩

/-- C10: both matching passes upper-case the transaction symbol before the
queue lookup, so two transactions whose symbols agree up to case are processed
identically (against the same queue); every queue key is the upper-cased form
of some transaction's symbol; and a concrete mixed-case history aggregates
into a single Holding keyed by the upper-cased symbol. -/
theorem C10_uppercase_symbol_queues :
    (∀ (st : List (String × List Lot) × ℚ) (tx : Tx) (s2 : String),
        rustToUpper tx.symbol = rustToUpper s2 →
        processTx st tx = processTx st { tx with symbol := s2 })
      ∧ (∀ (s e : Option String) (st : List (String × List Lot2) × ℚ) (tx : Tx) (s2 : String),
          rustToUpper tx.symbol = rustToUpper s2 →
          processTxRange s e st tx = processTxRange s e st { tx with symbol := s2 })
      ∧ (∀ (txs : List Tx) (sq : String × List Lot), sq ∈ (runLedger txs).1 →
          ∃ tx ∈ txs, sq.1 = rustToUpper tx.symbol)
      ∧ getCurrentHoldings []
          [⟨"d1", "aapl", "BUY", 1, 10, "t"⟩, ⟨"d2", "AAPL", "BUY", 2, 10, "t"⟩]
          = ([⟨"AAPL", "AAPL", "t", 3, 10, 0, 0, -30, -100⟩], 0) := by
  refine ⟨?_, ?_, ?_, by decide⟩
  · intro st tx s2 h
    simp only [processTx, h]
  · intro s e st tx s2 h
    simp only [processTxRange, h]
  · intro txs sq hsq
    rcases foldl_processTx_keys txs [] 0 sq hsq with h | h
    · simp at h
    · exact h

/-! Claim C7: order lemmas for `strLt` and the snapshot selectors. -/

theorem listLt_irrefl (l : List Char) : listLt l l = false := by
  induction l with
  | nil => rfl
  | cons x xs ih => simp [listLt, lt_irrefl, ih]

theorem listLt_trans (a b c : List Char) (h1 : listLt a b = true) (h2 : listLt b c = true) :
    listLt a c = true := by
  induction a generalizing b c with
  | nil =>
    cases b with
    | nil => simp [listLt] at h1
    | cons y ys =>
      cases c with
      | nil => simp [listLt] at h2
      | cons z zs => rfl
  | cons x xs ih =>
    cases b with
    | nil => simp [listLt] at h1
    | cons y ys =>
      cases c with
      | nil => simp [listLt] at h2
      | cons z zs =>
        rw [listLt] at h1 h2 ⊢
        by_cases hxy : x < y
        · by_cases hyz : y < z
          · simp [lt_trans hxy hyz]
          · by_cases hzy : z < y
            · simp [hyz, hzy] at h2
            · have hyz' : y = z := le_antisymm (not_lt.mp hzy) (not_lt.mp hyz)
              have hxz : x < z := hyz' ▸ hxy
              simp [hxz]
        · by_cases hyx : y < x
          · simp [hxy, hyx] at h1
          · have hxy' : x = y := le_antisymm (not_lt.mp hyx) (not_lt.mp hxy)
            simp only [if_neg hxy, if_neg hyx] at h1
            by_cases hyz : y < z
            · have hxz : x < z := hxy' ▸ hyz
              simp [hxz]
            · by_cases hzy : z < y
              · simp [hyz, hzy] at h2
              · have hyz' : y = z := le_antisymm (not_lt.mp hzy) (not_lt.mp hyz)
                simp only [if_neg hyz, if_neg hzy] at h2
                have hrec : listLt xs zs = true := ih ys zs h1 h2
                have hxz : ¬ x < z := by
                  rw [hxy', hyz']
                  exact lt_irrefl z
                have hzx : ¬ z < x := by
                  rw [hxy', hyz']
                  exact lt_irrefl z
                simp [hxz, hzx, hrec]

theorem listLt_connex (a b : List Char) (h1 : listLt a b = false) (h2 : listLt b a = false) :
    a = b := by
  induction a generalizing b with
  | nil =>
    cases b with
    | nil => rfl
    | cons y ys => simp [listLt] at h1
  | cons x xs ih =>
    cases b with
    | nil => simp [listLt] at h2
    | cons y ys =>
      rw [listLt] at h1 h2
      by_cases hxy : x < y
      · simp [hxy] at h1
      · by_cases hyx : y < x
        · simp [hyx] at h2
        · have hxy' : x = y := le_antisymm (not_lt.mp hyx) (not_lt.mp hxy)
          simp only [if_neg hxy, if_neg hyx] at h1
          simp only [if_neg hyx, if_neg hxy] at h2
          rw [hxy', ih ys h1 h2]

theorem strLt_irrefl (a : String) : strLt a a = false := listLt_irrefl a.data

theorem strLt_trans (a b c : String) (h1 : strLt a b = true) (h2 : strLt b c = true) :
    strLt a c = true := listLt_trans a.data b.data c.data h1 h2

theorem strLt_connex (a b : String) (h1 : strLt a b = false) (h2 : strLt b a = false) : a = b := by
  rcases a with ⟨la⟩
  rcases b with ⟨lb⟩
  exact congrArg String.mk (listLt_connex la lb h1 h2)

theorem bestSnap_go (snaps : List (String × ℚ)) (b : String × ℚ) :
    ∃ bf, snaps.foldl
        (fun acc r =>
          match acc with
          | none => some r
          | some b' => if strLt b'.1 r.1 then some r else some b')
        (some b) = some bf
      ∧ (bf = b ∨ bf ∈ snaps)
      ∧ strLt bf.1 b.1 = false
      ∧ ∀ r ∈ snaps, strLt bf.1 r.1 = false := by
  induction snaps generalizing b with
  | nil => exact ⟨b, rfl, Or.inl rfl, strLt_irrefl b.1, by simp⟩
  | cons r rest ih =>
    simp only [List.foldl_cons]
    by_cases hbr : strLt b.1 r.1 = true
    · rw [if_pos hbr]
      rcases ih r with ⟨bf, heq, hmem, hnotb, hall⟩
      refine ⟨bf, heq, ?_, ?_, ?_⟩
      · rcases hmem with h | h
        · exact Or.inr (h ▸ List.mem_cons_self _ _)
        · exact Or.inr (List.mem_cons_of_mem _ h)
      · cases hfb : strLt bf.1 b.1 with
        | false => rfl
        | true => exact absurd (listLt_trans bf.1.data b.1.data r.1.data hfb hbr) (by simpa using hnotb)
      · intro r' hr'
        rcases List.mem_cons.mp hr' with h | h
        · exact h ▸ hnotb
        · exact hall r' h
    · rw [if_neg hbr]
      have hbr' : strLt b.1 r.1 = false := by simpa using hbr
      rcases ih b with ⟨bf, heq, hmem, hnotb, hall⟩
      refine ⟨bf, heq, ?_, hnotb, ?_⟩
      · rcases hmem with h | h
        · exact Or.inl h
        · exact Or.inr (List.mem_cons_of_mem _ h)
      intro r' hr'
      rcases List.mem_cons.mp hr' with h | h
      · subst h
        cases hfr : strLt bf.1 r'.1 with
        | false => rfl
        | true =>
          cases hfb : strLt bf.1 b.1 with
          | true => exact absurd hfb (by simpa using hnotb)
          | false =>
            cases hbf : strLt b.1 bf.1 with
            | true => exact absurd (strLt_trans b.1 bf.1 r'.1 hbf hfr) (by simpa using hbr')
            | false =>
              have : b.1 = bf.1 := strLt_connex b.1 bf.1 hbf hfb
              rw [← this] at hfr
              exact absurd hfr (by simpa using hbr')
      · exact hall r' h

theorem bestSnap_spec (snaps : List (String × ℚ)) (b : String × ℚ)
    (h : bestSnap snaps = some b) :
    b ∈ snaps ∧ ∀ r ∈ snaps, strLt b.1 r.1 = false := by
  cases snaps with
  | nil => simp [bestSnap] at h
  | cons r rest =>
    rcases bestSnap_go rest r with ⟨bf, heq, hmem, hnotr, hall⟩
    have : bestSnap (r :: rest) = some bf := by
      simpa [bestSnap, List.foldl_cons] using heq
    rw [this] at h
    injection h with h'
    subst h'
    refine ⟨?_, ?_⟩
    · rcases hmem with h | h
      · exact h ▸ List.mem_cons_self _ _
      · exact List.mem_cons_of_mem _ h
    · intro r' hr'
      rcases List.mem_cons.mp hr' with h | h
      · exact h ▸ hnotr
      · exact hall r' h

theorem snapAtMost_spec (snaps : List (String × ℚ)) (bound : String) (b : String × ℚ)
    (h : snapAtMost snaps bound = some b) :
    b ∈ snaps ∧ strLt bound b.1 = false
      ∧ ∀ r ∈ snaps, strLt bound r.1 = false → strLt b.1 r.1 = false := by
  rcases bestSnap_spec _ b h with ⟨hmem, hall⟩
  rcases List.mem_filter.mp hmem with ⟨hmem', hcond⟩
  refine ⟨hmem', by simpa using hcond, ?_⟩
  intro r hr hrb
  exact hall r (List.mem_filter.mpr ⟨hr, by simpa using hrb⟩)

/-- C7: arbitrary-range performance. With an unspecified start the result is
always (0, 0) whatever the snapshot table holds; with a positive start value
the result is (end − start, 100 × (end − start) / start) where the end value
resolves to the latest snapshot at most the end bound (or the globally latest
when the end bound is unspecified) and the start value to the latest snapshot
at most the start bound; a non-positive start value yields (0, 0); and the
snapshot selectors really pick the latest dated row within the bound. -/
theorem C7_range_performance (snaps : List (String × ℚ)) (s e : String) (e? : Option String) :
    getRangePerformance snaps none e? = (0, 0)
      ∧ (0 < ((snapAtMost snaps s).map Prod.snd).getD 0 →
          getRangePerformance snaps (some s) (some e)
            = (((snapAtMost snaps e).map Prod.snd).getD 0
                - ((snapAtMost snaps s).map Prod.snd).getD 0,
               100 * (((snapAtMost snaps e).map Prod.snd).getD 0
                - ((snapAtMost snaps s).map Prod.snd).getD 0)
                / ((snapAtMost snaps s).map Prod.snd).getD 0))
      ∧ (0 < ((snapAtMost snaps s).map Prod.snd).getD 0 →
          getRangePerformance snaps (some s) none
            = (((bestSnap snaps).map Prod.snd).getD 0
                - ((snapAtMost snaps s).map Prod.snd).getD 0,
               100 * (((bestSnap snaps).map Prod.snd).getD 0
                - ((snapAtMost snaps s).map Prod.snd).getD 0)
                / ((snapAtMost snaps s).map Prod.snd).getD 0))
      ∧ (¬ 0 < ((snapAtMost snaps s).map Prod.snd).getD 0 →
          getRangePerformance snaps (some s) e? = (0, 0))
      ∧ (∀ b, snapAtMost snaps s = some b →
          b ∈ snaps ∧ strLt s b.1 = false
            ∧ ∀ r ∈ snaps, strLt s r.1 = false → strLt b.1 r.1 = false)
      ∧ (∀ b, bestSnap snaps = some b → b ∈ snaps ∧ ∀ r ∈ snaps, strLt b.1 r.1 = false) := by
  refine ⟨?_, ?_, ?_, ?_, fun b hb => snapAtMost_spec snaps s b hb,
    fun b hb => bestSnap_spec snaps b hb⟩
  · simp [getRangePerformance]
  · intro hpos
    rw [getRangePerformance, if_pos hpos, Prod.mk.injEq]
    exact ⟨rfl, by ring⟩
  · intro hpos
    rw [getRangePerformance, if_pos hpos, Prod.mk.injEq]
    exact ⟨rfl, by ring⟩
  · intro hpos
    cases e? with
    | none => simp [getRangePerformance, hpos]
    | some e2 => simp [getRangePerformance, hpos]

/-- Witness for C7 at a two-row snapshot table. -/
theorem C7_range_performance_witness :
    getRangePerformance [("2024-01-01", 100), ("2024-02-01", 150)]
        (some "2024-01-15") (some "2024-03-01")
      = (((snapAtMost [("2024-01-01", 100), ("2024-02-01", 150)] "2024-03-01").map
            Prod.snd).getD 0
          - ((snapAtMost [("2024-01-01", 100), ("2024-02-01", 150)] "2024-01-15").map
            Prod.snd).getD 0,
         100 * (((snapAtMost [("2024-01-01", 100), ("2024-02-01", 150)] "2024-03-01").map
            Prod.snd).getD 0
          - ((snapAtMost [("2024-01-01", 100), ("2024-02-01", 150)] "2024-01-15").map
            Prod.snd).getD 0)
          / ((snapAtMost [("2024-01-01", 100), ("2024-02-01", 150)] "2024-01-15").map
            Prod.snd).getD 0) :=
  (C7_range_performance [("2024-01-01", 100), ("2024-02-01", 150)]
    "2024-01-15" "2024-03-01" none).2.1 (by decide)

/-! Claim C6. -/

theorem probeAux_queried (wd : ℤ → ℕ) (f : ℤ → String → Option (List FundRec)) (today : ℤ)
    (fuel : ℕ) : ∀ (i : ℕ) (d : ℤ), d ∈ (probeAux wd f today i fuel).2 →
      wd d ≤ 5 ∧ ∃ j : ℕ, i ≤ j ∧ j < i + fuel ∧ d = today - j := by
  induction fuel with
  | zero =>
    intro i d hd
    simp [probeAux] at hd
  | succ fuel ih =>
    intro i d hd
    rw [probeAux] at hd
    by_cases hwk : wd (today - i) > 5
    · rw [if_pos hwk] at hd
      obtain ⟨h5, j, hj1, hj2, hj3⟩ := ih (i + 1) d hd
      exact ⟨h5, j, by omega, by omega, hj3⟩
    · rw [if_neg hwk] at hd
      have h5 : wd (today - i) ≤ 5 := by omega
      cases hf : f (today - i) "YAT" with
      | some data =>
        rw [hf] at hd
        dsimp only at hd
        by_cases hne : data = []
        · rw [if_neg (by simp [hne])] at hd
          simp only [List.mem_cons] at hd
          rcases hd with rfl | hd
          · exact ⟨h5, i, le_refl i, by omega, rfl⟩
          · obtain ⟨h5', j, hj1, hj2, hj3⟩ := ih (i + 1) d hd
            exact ⟨h5', j, by omega, by omega, hj3⟩
        · rw [if_pos (by simpa using hne)] at hd
          simp only [List.mem_singleton] at hd
          subst hd
          exact ⟨h5, i, le_refl i, by omega, rfl⟩
      | none =>
        rw [hf] at hd
        dsimp only at hd
        simp only [List.mem_cons] at hd
        rcases hd with rfl | hd
        · exact ⟨h5, i, le_refl i, by omega, rfl⟩
        · obtain ⟨h5', j, hj1, hj2, hj3⟩ := ih (i + 1) d hd
          exact ⟨h5', j, by omega, by omega, hj3⟩

theorem probeAux_adopt (wd : ℤ → ℕ) (f : ℤ → String → Option (List FundRec)) (today : ℤ)
    (fuel : ℕ) : ∀ (i : ℕ) (d : ℤ) (data : List FundRec),
      (probeAux wd f today i fuel).1 = some (d, data) →
      f d "YAT" = some data ∧ data ≠ [] ∧ d ∈ (probeAux wd f today i fuel).2
        ∧ ∀ d' ∈ (probeAux wd f today i fuel).2,
            d ≤ d' ∧ (d' ≠ d → ∀ dd, f d' "YAT" = some dd → dd = []) := by
  induction fuel with
  | zero =>
    intro i d data h
    simp [probeAux] at h
  | succ fuel ih =>
    intro i d data h
    have hd_lowers : ∀ d' ∈ (probeAux wd f today (i + 1) fuel).2, d' ≤ today - i - 1 := by
      intro d' hd'
      obtain ⟨_, j, hj1, _, hj3⟩ := probeAux_queried wd f today fuel (i + 1) d' hd'
      have : (i : ℤ) + 1 ≤ (j : ℤ) := by exact_mod_cast hj1
      omega
    rw [probeAux] at h ⊢
    by_cases hwk : wd (today - i) > 5
    · rw [if_pos hwk] at h ⊢
      exact ih (i + 1) d data h
    · rw [if_neg hwk] at h ⊢
      cases hf : f (today - i) "YAT" with
      | some data0 =>
        rw [hf] at h
        dsimp only at h ⊢
        by_cases hne : data0 = []
        · rw [if_neg (by simp [hne])] at h ⊢
          simp only at h
          obtain ⟨hfd, hdne, hmem, hall⟩ := ih (i + 1) d data h
          refine ⟨hfd, hdne, List.mem_cons_of_mem _ hmem, ?_⟩
          intro d' hd'
          rcases List.mem_cons.mp hd' with rfl | hd'
          · have hdle : d ≤ today - i := by
              have := hd_lowers d hmem
              omega
            refine ⟨hdle, fun _ dd hdd => ?_⟩
            rw [hf] at hdd
            injection hdd with h'
            rw [← h', hne]
          · exact hall d' hd'
        · rw [if_pos (by simpa using hne)] at h ⊢
          simp only at h
          injection h with h'
          injection h' with h1 h2
          subst h1
          subst h2
          refine ⟨hf, hne, List.mem_singleton.mpr rfl, ?_⟩
          intro d' hd'
          simp only [List.mem_singleton] at hd'
          subst hd'
          exact ⟨le_refl _, fun hne' => absurd rfl hne'⟩
      | none =>
        rw [hf] at h
        dsimp only at h ⊢
        obtain ⟨hfd, hdne, hmem, hall⟩ := ih (i + 1) d data h
        refine ⟨hfd, hdne, List.mem_cons_of_mem _ hmem, ?_⟩
        intro d' hd'
        rcases List.mem_cons.mp hd' with rfl | hd'
        · have hdle : d ≤ today - i := by
            have := hd_lowers d hmem
            omega
          refine ⟨hdle, fun _ dd hdd => ?_⟩
          rw [hf] at hdd
          exact absurd hdd (by simp)
        · exact hall d' hd'

/-- C6: the fund-NAV date probe starts from today and walks back over at most
5 calendar days; weekend days are skipped without being queried (every queried
date has weekday ≤ 5 and lies in the window); the adopted date is the first
queried date whose `YAT` query returns a non-empty data array — every more
recent queried date failed or returned empty, and probing goes no further;
when no candidate yields data (the probe adopts nothing, in particular when
every `YAT` query over the window fails or returns an empty array) the fetch
performs no writes; and in the
concrete scenario where today and yesterday (weekdays) return empty data and
two days ago returns data, that date is adopted. -/
theorem C6_fund_date_probe (wd : ℤ → ℕ) (f : ℤ → String → Option (List FundRec)) (today : ℤ) :
    (∀ d ∈ (probeTefas wd f today).2, wd d ≤ 5 ∧ ∃ j : ℕ, j < 5 ∧ d = today - j)
      ∧ (∀ (d : ℤ) (data : List FundRec), (probeTefas wd f today).1 = some (d, data) →
          f d "YAT" = some data ∧ data ≠ [] ∧ d ∈ (probeTefas wd f today).2
            ∧ ∀ d' ∈ (probeTefas wd f today).2,
                d ≤ d' ∧ (d' ≠ d → ∀ dd, f d' "YAT" = some dd → dd = []))
      ∧ ((probeTefas wd f today).1 = none → updateTefasFunds wd f today = [])
      ∧ ((∀ (d : ℤ) (dd : List FundRec), f d "YAT" = some dd → dd = []) →
          updateTefasFunds wd f today = [])
      ∧ probeTefas (fun _ => 3)
          (fun d _ =>
            if d = 0 then some [] else if d = -1 then some []
            else if d = -2 then some [⟨some "AFA", some "Fon", some 10, none, none, some 1⟩]
            else none)
          0
        = (some (-2, [⟨some "AFA", some "Fon", some 10, none, none, some 1⟩]), [0, -1, -2]) := by
  refine ⟨?_, ?_, ?_, ?_, by decide⟩
  · intro d hd
    obtain ⟨h5, j, hj1, hj2, hj3⟩ := probeAux_queried wd f today 5 0 d hd
    exact ⟨h5, j, by omega, hj3⟩
  · intro d data h
    exact probeAux_adopt wd f today 5 0 d data h
  · intro h
    simp [updateTefasFunds, h]
  · intro hall
    cases hp : (probeTefas wd f today).1 with
    | none => simp [updateTefasFunds, hp]
    | some pr =>
      rcases pr with ⟨d, data⟩
      obtain ⟨hfd, hdne, _, _⟩ := probeAux_adopt wd f today 5 0 d data hp
      exact absurd (hall d data hfd) hdne

/-! Claim C8. -/

theorem pairwise_getLast {α : Type} {R : α → α → Prop} (l : List α) (hne : l ≠ [])
    (hpair : List.Pairwise R l) :
    ∀ x ∈ l, x = l.getLast hne ∨ R x (l.getLast hne) := by
  induction l with
  | nil => exact absurd rfl hne
  | cons a rest ih =>
    intro x hx
    cases rest with
    | nil =>
      simp only [List.mem_singleton] at hx
      subst hx
      exact Or.inl rfl
    | cons b t =>
      have hlast : (a :: b :: t).getLast hne = (b :: t).getLast (List.cons_ne_nil b t) :=
        List.getLast_cons (List.cons_ne_nil b t)
      rcases List.mem_cons.mp hx with rfl | hx'
      · right
        rw [hlast]
        exact (List.pairwise_cons.mp hpair).1 _ (List.getLast_mem (List.cons_ne_nil b t))
      · have := ih (List.cons_ne_nil b t) (List.pairwise_cons.mp hpair).2 x hx'
        rw [hlast]
        exact this

/-- C8 fails as stated: the code formats the performers with the percent sign
BEFORE the number — `format!("{} (%{:.1})", ..)` — so a single holding of
pnl_pct 50 produces "A (%50.0)", not a string of the claimed
"<symbol> (<pnl_pct>%)" shape. -/
theorem C8_counterexample :
    (topWorst [⟨"A", "A", "t", 1, 10, 15, 15, 5, 50⟩]).1 = "A (%50.0)"
      ∧ "A (%50.0)" ≠ "A (50%)" ∧ "A (%50.0)" ≠ "A (50.0%)" := by
  refine ⟨?_, by decide, by decide⟩
  simp [topWorst, List.mergeSort, pnlPctDesc]
  decide

/-- C8, amended: the top performer is a holding attaining the maximum pnl_pct
and the worst performer one attaining the minimum pnl_pct among the current
holdings, each formatted as "<symbol> (%<pnl_pct>)" with the percent sign
preceding the number (one rounded decimal, Turkish convention); both fields
are "-" when there are no holdings. -/
theorem C8_top_worst_performer (holdings : List Holding) :
    (holdings = [] → topWorst holdings = ("-", "-"))
      ∧ (holdings ≠ [] → ∃ ht hw, ht ∈ holdings ∧ hw ∈ holdings
          ∧ (∀ x ∈ holdings, x.pnl_pct ≤ ht.pnl_pct)
          ∧ (∀ x ∈ holdings, hw.pnl_pct ≤ x.pnl_pct)
          ∧ topWorst holdings
              = (fmtPerformer ht.symbol ht.pnl_pct, fmtPerformer hw.symbol hw.pnl_pct)) := by
  constructor
  · intro h
    subst h
    rfl
  · intro hne
    have htrans : ∀ a b c : Holding, pnlPctDesc a b = true → pnlPctDesc b c = true →
        pnlPctDesc a c = true := by
      intro a b c h1 h2
      simp only [pnlPctDesc, decide_eq_true_eq] at h1 h2 ⊢
      exact le_trans h2 h1
    have htotal : ∀ a b : Holding, (pnlPctDesc a b || pnlPctDesc b a) = true := by
      intro a b
      simp only [pnlPctDesc, Bool.or_eq_true, decide_eq_true_eq]
      exact le_total b.pnl_pct a.pnl_pct
    have hpair := List.sorted_mergeSort htrans htotal holdings
    have hperm := List.mergeSort_perm holdings pnlPctDesc
    have hsne : holdings.mergeSort pnlPctDesc ≠ [] := by
      intro h0
      exact hne (List.Perm.eq_nil (h0 ▸ hperm).symm)
    cases hs : holdings.mergeSort pnlPctDesc with
    | nil => exact absurd hs hsne
    | cons h t =>
      rw [hs] at hpair hperm
      have hemp : holdings.isEmpty = false := by
        cases holdings with
        | nil => exact absurd rfl hne
        | cons _ _ => rfl
      refine ⟨h, (h :: t).getLast (List.cons_ne_nil h t), ?_, ?_, ?_, ?_, ?_⟩
      · exact hperm.mem_iff.mp (List.mem_cons_self _ _)
      · exact hperm.mem_iff.mp (List.getLast_mem (List.cons_ne_nil h t))
      · intro x hx
        have hx' : x ∈ h :: t := hperm.mem_iff.mpr hx
        rcases List.mem_cons.mp hx' with rfl | hx''
        · exact le_refl _
        · have := (List.pairwise_cons.mp hpair).1 x hx''
          simpa [pnlPctDesc] using this
      · intro x hx
        have hx' : x ∈ h :: t := hperm.mem_iff.mpr hx
        rcases pairwise_getLast (h :: t) (List.cons_ne_nil h t) hpair x hx' with heq | hR
        · rw [heq]
        · simpa [pnlPctDesc] using hR
      · rw [topWorst, if_neg (by simp [hemp]), hs]

/-- C2 fails as stated: a ledger may record a BUY of quantity 0 (the data model
allows quantity ≥ 0 and the code pushes every BUY unconditionally), and the
resulting lot of quantity 0 remains in the queue after processing. -/
theorem C2_counterexample :
    (runLedger [⟨"2024-01-01", "X", "BUY", 0, 5, "hisse"⟩]).1 = [("X", [⟨0, 5, "hisse"⟩])]
      ∧ (⟨0, 5, "hisse"⟩ : Lot).qty = 0 := by decide

/-- C2, amended: provided every BUY records a strictly positive quantity, every
lot remaining in any queue after processing the whole history has strictly
positive quantity; and a SELL of quantity exceeding the total currently held
consumes the whole queue (realizing the profit of every open lot), silently
drops the excess, and creates no negative or zero-quantity lots — the matcher
is a total function, so no error is raised. -/
theorem C2_no_nonpositive_lots (txs : List Tx)
    (hb : ∀ tx ∈ txs, isBuyType tx.transaction_type = true → 0 < tx.quantity) :
    (∀ sq ∈ (runLedger txs).1, ∀ l ∈ sq.2, 0 < l.qty)
      ∧ (∀ price q queue, (∀ l ∈ queue, 0 < l.qty) → totalQty queue < q →
          sellFromQueue price q queue = ((queue.map (fun l => (price - l.price) * l.qty)).sum, [])) :=
  ⟨foldl_processTx_pos txs [] 0 (by simp) hb,
   fun price q queue hpos hover => sellFromQueue_oversell price q queue hpos hover⟩

/-- Witness for C2 (amended): an oversell of 20 against lots [10@100, 5@120]
empties the queue and realizes the profit of both lots. -/
theorem C2_no_nonpositive_lots_witness :
    sellFromQueue 150 20 [⟨10, 100, "hisse"⟩, ⟨5, 120, "hisse"⟩]
      = ((([⟨10, 100, "hisse"⟩, ⟨5, 120, "hisse"⟩] : List Lot).map
          (fun l => (150 - l.price) * l.qty)).sum, []) :=
  (C2_no_nonpositive_lots [] (by simp)).2 150 20 [⟨10, 100, "hisse"⟩, ⟨5, 120, "hisse"⟩]
    (by decide) (by decide)
